import Mathlib

/-!
Shallow embedding of
`src/sample-simplify-departmental-cost-allocation-with-aws-organizations-and-lambda.py`.

The program walks an AWS Organizations OU tree, collects the ACTIVE accounts
transitively under each top-level OU, and reconciles one Cost Explorer cost
category per non-empty top-level OU (create or update, keyed by the name
`"OU-" + ou_name`).

Modelling conventions:
* The directory service seen by `get_accounts_by_ou` is modelled as a finite
  tree (`OUTree`).  Each node records the items its two paginated listing
  calls yielded before terminating, together with a flag saying whether that
  termination was a success or a `ClientError` raised mid-pagination
  (`accountsErr` for `list_accounts_for_parent`, `childrenErr` for
  `list_children`).  `get_accounts_by_ou` only ever observes the yielded
  prefix, exactly as the Python `for page in paginator.paginate(...)` loop
  does.
* The Cost Explorer client is a record of state-passing operations
  (`CEClient`), so that the same embedded `create_or_update_cost_category`
  can be run against an honest in-memory store (for idempotence) or against
  failing clients (for the error-handling claims).  Each operation returns
  the possibly-mutated state together with `Except String` (`.error` models
  a raised `ClientError`).
* Functions that in Python swallow `ClientError` with `try/except` are total
  here: the `.error` branch of each call is matched and discarded, mirroring
  the `except ClientError` handler that only prints.
* The embedded functions additionally return the list of Cost Explorer calls
  they issued (`CECall`), which is the observable the create-vs-update and
  partial-failure claims are about.
-/

/-- An account record as returned by `list_accounts_for_parent`
(the fields the source reads: `Id`, `Name`, `Status`). -/
structure OrgAccount where
  Id : String
  Name : String
  Status : String
deriving Repr, DecidableEq

/-- The `{'Id': ..., 'Name': ...}` dict appended by `get_accounts_by_ou`
(source lines 15-18). -/
structure AccountEntry where
  Id : String
  Name : String
deriving Repr, DecidableEq

/-- The directory subtree rooted at one OU, as observed through the two
paginated listing calls of `get_accounts_by_ou`:
`accounts` are the account records yielded by `list_accounts_for_parent`
before it terminated, `accountsErr` is `true` when that termination was a
`ClientError` rather than normal exhaustion; `children` are the child-OU
subtrees yielded by `list_children` before it terminated, `childrenErr`
likewise marks a `ClientError` termination. -/
inductive OUTree where
  | node (ouId : String) (accounts : List OrgAccount) (accountsErr : Bool)
      (children : List OUTree) (childrenErr : Bool)

/-- The ACTIVE-status filter and `{'Id','Name'}` projection applied to the
accounts of one OU (source lines 13-18). -/
def activeEntries (accs : List OrgAccount) : List AccountEntry :=
  (accs.filter fun a => a.Status == "ACTIVE").map fun a => ⟨a.Id, a.Name⟩

mutual
/-- Embedding of `get_accounts_by_ou` (source lines 5-33).  If the account
listing raised (`accountsErr`), the function `return accounts` early with the
ACTIVE entries appended so far and never visits the children; otherwise it
appends every child's recursive result.  A `ClientError` from the child
listing only truncates the `children` list (the yielded prefix is all the
loop ever saw), so the childrenErr flag does not change the value: the
already-collected accounts are returned either way. -/
def get_accounts_by_ou : OUTree → List AccountEntry
  | .node _ accs accErr children _ =>
    if accErr then activeEntries accs
    else activeEntries accs ++ get_accounts_by_ou_children children

/-- The `for child in page['Children']` loop of `get_accounts_by_ou`
(source lines 26-29): recurse into each child and `extend`. -/
def get_accounts_by_ou_children : List OUTree → List AccountEntry
  | [] => []
  | c :: cs => get_accounts_by_ou c ++ get_accounts_by_ou_children cs
end

mutual
/-- Every listing call in the subtree succeeded (no truncation anywhere). -/
def treeOk : OUTree → Bool
  | .node _ _ accErr children childErr =>
    !accErr && !childErr && treeOkList children

/-- `treeOk` for every tree in a list. -/
def treeOkList : List OUTree → Bool
  | [] => true
  | c :: cs => treeOk c && treeOkList cs
end

mutual
/-- All account records listed anywhere in the subtree, in depth-first
pre-order (own accounts before descendants'). -/
def allAccounts : OUTree → List OrgAccount
  | .node _ accs _ children _ => accs ++ allAccountsList children

/-- `allAccounts` concatenated over a list of subtrees. -/
def allAccountsList : List OUTree → List OrgAccount
  | [] => []
  | c :: cs => allAccounts c ++ allAccountsList cs
end

lemma activeEntries_append (a b : List OrgAccount) :
    activeEntries (a ++ b) = activeEntries a ++ activeEntries b := by
  simp [activeEntries]

mutual
/-- When every listing call in the subtree succeeds, the collector returns
exactly the ACTIVE entries of all accounts in the subtree, in pre-order. -/
lemma get_accounts_by_ou_of_ok :
    ∀ t : OUTree, treeOk t = true →
      get_accounts_by_ou t = activeEntries (allAccounts t)
  | .node ouId accs accErr children childErr, h => by
    simp only [treeOk, Bool.and_eq_true, Bool.not_eq_true'] at h
    obtain ⟨⟨ha, _⟩, hcs⟩ := h
    subst ha
    simp only [get_accounts_by_ou, if_false, allAccounts, activeEntries_append,
      Bool.false_eq_true]
    rw [get_accounts_by_ou_children_of_ok children hcs]

/-- `get_accounts_by_ou_of_ok` lifted over the child loop. -/
lemma get_accounts_by_ou_children_of_ok :
    ∀ cs : List OUTree, treeOkList cs = true →
      get_accounts_by_ou_children cs = activeEntries (allAccountsList cs)
  | [], _ => rfl
  | c :: cs, h => by
    simp only [treeOkList, Bool.and_eq_true] at h
    simp only [get_accounts_by_ou_children, allAccountsList, activeEntries_append]
    rw [get_accounts_by_ou_of_ok c h.1, get_accounts_by_ou_children_of_ok cs h.2]
end

/-! ## Cost Explorer model -/

/-- One element of `CostCategoryReferences` as the source reads it
(`Name` and `CostCategoryArn`, source lines 53-54 and 71-73). -/
structure CostCategoryRef where
  Name : String
  CostCategoryArn : String
deriving Repr, DecidableEq

/-- The `Dimensions` block of the rule built at source lines 60-64. -/
structure DimensionBlock where
  Key : String
  Values : List String
  MatchOptions : List String
deriving Repr, DecidableEq

/-- One element of the `Rules` list built at source lines 57-66. -/
structure CategoryRule where
  Value : String
  Dimensions : DimensionBlock
deriving Repr, DecidableEq

/-- One Cost Explorer call issued by the program, with the arguments the
source passes (source lines 52, 70-76, 80-85). -/
inductive CECall where
  | listDefs
  | update (CostCategoryArn : String) (RuleVersion : String) (Rules : List CategoryRule)
  | create (Name : String) (RuleVersion : String) (Rules : List CategoryRule)
      (DefaultValue : String)
deriving Repr, DecidableEq

/-- A Cost Explorer client over a state type `σ`: each operation returns the
possibly-mutated state together with `.ok` on success or `.error msg` for a
raised `ClientError`.  This is the dependency the Python code reaches through
`ce_client`. -/
structure CEClient (σ : Type) where
  listDefs : σ → σ × Except String (List CostCategoryRef)
  updateDef : σ → String → String → List CategoryRule → σ × Except String Unit
  createDef : σ → String → String → List CategoryRule → String → σ × Except String Unit

/-- Embedding of `create_or_update_cost_category` (source lines 46-89).
Returns the final client state and the list of Cost Explorer calls issued.
The whole body is inside `try/except ClientError`, whose handler only
prints, so a `.error` from any call ends the function without further calls
and without propagating: the function is total. -/
def create_or_update_cost_category {σ : Type} (ce : CEClient σ) (s : σ)
    (ou_name : String) (account_ids : List String) : σ × List CECall :=
  let category_name := "OU-" ++ ou_name
  let (s1, listRes) := ce.listDefs s
  match listRes with
  | .error _ => (s1, [CECall.listDefs])
  | .ok existing_categories =>
    let category_exists := existing_categories.any fun cat => cat.Name == category_name
    let rules : List CategoryRule :=
      [⟨ou_name, ⟨"LINKED_ACCOUNT", account_ids, ["EQUALS"]⟩⟩]
    if category_exists then
      let arn := (((existing_categories.filter fun cat => cat.Name == category_name).map
        fun cat => cat.CostCategoryArn)).head!
      let (s2, _) := ce.updateDef s1 arn "CostCategoryExpression.v1" rules
      (s2, [CECall.listDefs, CECall.update arn "CostCategoryExpression.v1" rules])
    else
      let (s2, _) := ce.createDef s1 category_name "CostCategoryExpression.v1" rules "Other"
      (s2, [CECall.listDefs,
        CECall.create category_name "CostCategoryExpression.v1" rules "Other"])

/-! ## Orchestrator model -/

/-- A top-level OU as the orchestrator sees it: its identifier, the outcome
of `describe_organizational_unit` (`none` models a `ClientError`, making
`get_ou_details` return `None`), and the directory subtree under it that
`get_accounts_by_ou` will traverse. -/
structure TopOU where
  ouId : String
  nameRes : Option String
  tree : OUTree

/-- Embedding of `get_ou_details` (source lines 35-44): the OU name on
success, `None` when the describe call raised `ClientError`. -/
def get_ou_details (ou : TopOU) : Option String :=
  ou.nameRes

/-- A Python exception distinguished by whether it is a
`botocore.exceptions.ClientError` (the only class the source catches). -/
inductive PyErr where
  | clientError (msg : String)
  | otherError (msg : String)
deriving Repr, DecidableEq

/-- The organizations-side environment of one `lambda_handler` run:
the outcome of `list_roots` (the list of root ids) and, per parent id, the
outcome of the paginated top-level `list_children` call. -/
structure OrgEnv where
  rootsRes : Except PyErr (List String)
  childrenRes : String → Except PyErr (List TopOU)

/-- `json.dumps` applied to a plain string: the quoted string.  (The strings
the source dumps contain no characters that JSON escapes.) -/
def json_dumps (s : String) : String :=
  "\"" ++ s ++ "\""

/-- The `{'statusCode': ..., 'body': ...}` dict returned by
`lambda_handler`. -/
structure LambdaResult where
  statusCode : Nat
  body : String
deriving Repr, DecidableEq

/-- An exception escaping `lambda_handler` uncaught: the `IndexError` from
`root_response['Roots'][0]` on an empty roots list, or any non-`ClientError`
raised by a remote call (the `except ClientError` handler does not catch
those). -/
inductive Uncaught where
  | indexError
  | raised (e : PyErr)
deriving Repr, DecidableEq

/-- The body of the per-OU loop of `lambda_handler` (source lines 103-115):
resolve the display name (`continue` when falsy — `None` after a failed
describe, or the empty string), collect the accounts, project to ids, and
call the reconciler only when the id list is non-empty. -/
def handle_top_ou {σ : Type} (ce : CEClient σ) (s : σ) (ou : TopOU) :
    σ × List CECall :=
  match get_ou_details ou with
  | none => (s, [])
  | some ou_name =>
    if ou_name == "" then (s, [])
    else
      let accounts := get_accounts_by_ou ou.tree
      let account_ids := accounts.map fun account => account.Id
      if account_ids.isEmpty then (s, [])
      else create_or_update_cost_category ce s ou_name account_ids

/-- The `for ou in page['Children']` loop of `lambda_handler`
(source lines 102-115), folded over the top-level OUs in order, threading
the Cost Explorer state and concatenating the issued calls. -/
def handle_top_ous {σ : Type} (ce : CEClient σ) : σ → List TopOU → σ × List CECall
  | s, [] => (s, [])
  | s, ou :: rest =>
    let (s1, t1) := handle_top_ou ce s ou
    let (s2, t2) := handle_top_ous ce s1 rest
    (s2, t1 ++ t2)

/-- Embedding of `lambda_handler` (source lines 91-127).  `.ok` carries the
returned dict together with the final Cost Explorer state and the calls
issued; `.error` models an exception escaping the handler uncaught.  The
`try` block catches `ClientError` only (returning the 500 dict whose body
embeds the error text); a non-`ClientError` from `list_roots` or the
top-level `list_children`, and the `IndexError` on an empty `Roots` list,
escape. -/
def lambda_handler {σ : Type} (org : OrgEnv) (ce : CEClient σ) (s : σ) :
    Except Uncaught (LambdaResult × σ × List CECall) :=
  match org.rootsRes with
  | .error (PyErr.clientError msg) =>
    .ok (⟨500, json_dumps ("Error: " ++ msg)⟩, s, [])
  | .error e => .error (Uncaught.raised e)
  | .ok roots =>
    match roots with
    | [] => .error Uncaught.indexError
    | root_id :: _ =>
      match org.childrenRes root_id with
      | .error (PyErr.clientError msg) =>
        .ok (⟨500, json_dumps ("Error: " ++ msg)⟩, s, [])
      | .error e => .error (Uncaught.raised e)
      | .ok ous =>
        let (s1, calls) := handle_top_ous ce s ous
        .ok (⟨200, json_dumps "Cost categories updated successfully"⟩, s1, calls)

/-! ## An honest in-memory classification store

The Cost Explorer service itself is an external collaborator (spec section 1
excludes it); for the idempotence claim we instantiate `CEClient` with a
faithful in-memory model of it: `list` returns a reference (name + ARN) per
stored definition, `create` appends a definition under a fresh ARN derived
from its (unique) name, `update` replaces the rules of the definition with
the given ARN. -/

/-- A stored cost category definition. -/
structure CostCategoryDef where
  Name : String
  CostCategoryArn : String
  RuleVersion : String
  Rules : List CategoryRule
  DefaultValue : String
deriving Repr, DecidableEq

/-- The classification store: the list of definitions, in creation order. -/
abbrev CEStore := List CostCategoryDef

/-- The reference (name + ARN) the listing call exposes for a stored
definition. -/
def refOf (d : CostCategoryDef) : CostCategoryRef :=
  ⟨d.Name, d.CostCategoryArn⟩

/-- The honest store client: every call succeeds; `create` assigns the ARN
`"arn:" ++ name` (fresh as long as names are unique); `update` rewrites the
rule version and rules of the definitions carrying the given ARN. -/
def honestCE : CEClient CEStore where
  listDefs s := (s, .ok (s.map refOf))
  updateDef s arn rv rules :=
    (s.map fun d =>
      if d.CostCategoryArn == arn then { d with RuleVersion := rv, Rules := rules } else d,
     .ok ())
  createDef s name rv rules dv := (s ++ [⟨name, "arn:" ++ name, rv, rules, dv⟩], .ok ())

/-- The rule list `create_or_update_cost_category` builds for a given OU name
and account-id list (source lines 57-66). -/
def rulesFor (ou_name : String) (account_ids : List String) : List CategoryRule :=
  [⟨ou_name, ⟨"LINKED_ACCOUNT", account_ids, ["EQUALS"]⟩⟩]

/-- The definition the honest store holds after a successful create for the
given OU name and account ids. -/
def mkDef (ou_name : String) (account_ids : List String) : CostCategoryDef :=
  ⟨"OU-" ++ ou_name, "arn:" ++ ("OU-" ++ ou_name), "CostCategoryExpression.v1",
    rulesFor ou_name account_ids, "Other"⟩

/-- The account-id list the orchestrator computes for one top-level OU
(source line 111). -/
def ouIds (ou : TopOU) : List String :=
  (get_accounts_by_ou ou.tree).map fun account => account.Id

/-- The (name, account ids) pair the per-OU loop body hands to the
reconciler, or `none` when the loop body skips the OU (falsy name, or empty
id list). -/
def ouSummary (ou : TopOU) : Option (String × List String) :=
  match get_ou_details ou with
  | none => none
  | some ou_name =>
    if ou_name == "" then none
    else if (ouIds ou).isEmpty then none
    else some (ou_name, ouIds ou)

/-- The (name, account ids) pairs of the top-level OUs that actually reach
the reconciler, in processing order. -/
def reconciled (ous : List TopOU) : List (String × List String) :=
  ous.filterMap ouSummary

lemma handle_top_ou_eq {σ : Type} (ce : CEClient σ) (s : σ) (ou : TopOU) :
    handle_top_ou ce s ou =
      match ouSummary ou with
      | none => (s, [])
      | some (n, ids) => create_or_update_cost_category ce s n ids := by
  unfold handle_top_ou ouSummary
  cases hname : get_ou_details ou with
  | none => rfl
  | some n =>
    by_cases hempty : n == ""
    · simp [hempty]
    · simp only [hempty, if_false, Bool.false_eq_true]
      by_cases hids : (ouIds ou).isEmpty
      · simp [ouIds] at hids
        simp [ouIds, hids]
      · simp only [ouIds] at hids ⊢
        simp [hids]

/-! ## Honest-store behaviour of the reconciler -/

lemma string_append_left_cancel {p a b : String} (h : p ++ a = p ++ b) : a = b := by
  have hd := congrArg String.data h
  simp only [String.data_append] at hd
  have h2 := List.append_cancel_left hd
  cases a; cases b; simp only at h2; rw [h2]

/-- In a list whose keys are distinct, filtering for the key of a member
returns exactly that member. -/
lemma filter_key_single {α β : Type} [DecidableEq β] (f : α → β) :
    ∀ (l : List α) (a : α), a ∈ l → (l.map f).Nodup →
      l.filter (fun x => f x == f a) = [a]
  | [], a, ha, _ => absurd ha (List.not_mem_nil a)
  | b :: l, a, ha, hnd => by
    simp only [List.map_cons, List.nodup_cons, List.mem_map] at hnd
    rcases List.mem_cons.mp ha with rfl | hal
    · simp only [List.filter_cons, beq_self_eq_true, if_true, List.cons.injEq, true_and]
      exact List.filter_eq_nil_iff.mpr fun x hx => by
        simp only [beq_iff_eq]
        exact fun hfx => hnd.1 ⟨x, hx, hfx⟩
    · have hne : (f b == f a) = false := by
        simp only [beq_eq_false_iff_ne, ne_eq]
        exact fun hfb => hnd.1 ⟨a, hal, hfb.symm⟩
      simp only [List.filter_cons, hne, Bool.false_eq_true, if_false]
      exact filter_key_single f l a hal hnd.2

/-- On the honest store, when no stored definition is named
`"OU-" ++ ou_name`, the reconciler takes the create path: it appends
`mkDef ou_name account_ids` and issues exactly a listing and a create. -/
lemma create_path (s : CEStore) (ou_name : String) (account_ids : List String)
    (hfresh : ∀ d ∈ s, d.Name ≠ "OU-" ++ ou_name) :
    create_or_update_cost_category honestCE s ou_name account_ids =
      (s ++ [mkDef ou_name account_ids],
       [CECall.listDefs,
        CECall.create ("OU-" ++ ou_name) "CostCategoryExpression.v1"
          (rulesFor ou_name account_ids) "Other"]) := by
  unfold create_or_update_cost_category
  simp only [honestCE]
  have hex : ((s.map refOf).any fun cat => cat.Name == "OU-" ++ ou_name) = false := by
    simp only [List.any_eq_false, List.mem_map, beq_eq_false_iff_ne, ne_eq]
    rintro cat ⟨d, hd, rfl⟩
    simpa [refOf] using hfresh d hd
  simp only [hex, Bool.false_eq_true, if_false, mkDef, rulesFor]

/-- On the honest store, when the store already holds `mkDef ou_name ids`
(same rules, ARN derived from the name), all names are distinct, and every
ARN is `"arn:" ++` its name, the reconciler takes the update path and leaves
the store unchanged: it issues exactly a listing and an update to that
definition's ARN. -/
lemma update_path_unchanged (s : CEStore) (ou_name : String)
    (account_ids : List String)
    (harns : ∀ d ∈ s, d.CostCategoryArn = "arn:" ++ d.Name)
    (hnodup : (s.map CostCategoryDef.Name).Nodup)
    (hmem : mkDef ou_name account_ids ∈ s) :
    create_or_update_cost_category honestCE s ou_name account_ids =
      (s, [CECall.listDefs,
           CECall.update ("arn:" ++ ("OU-" ++ ou_name)) "CostCategoryExpression.v1"
             (rulesFor ou_name account_ids)]) := by
  unfold create_or_update_cost_category
  simp only [honestCE]
  have hex : ((s.map refOf).any fun cat => cat.Name == "OU-" ++ ou_name) = true := by
    simp only [List.any_eq_true, List.mem_map]
    exact ⟨refOf (mkDef ou_name account_ids), ⟨_, hmem, rfl⟩, by simp [refOf, mkDef]⟩
  have hnodupRefs : ((s.map refOf).map CostCategoryRef.Name).Nodup := by
    simpa [Function.comp, refOf] using hnodup
  have hfilter : ((s.map refOf).filter fun cat => cat.Name == "OU-" ++ ou_name) =
      [refOf (mkDef ou_name account_ids)] := by
    have := filter_key_single CostCategoryRef.Name (s.map refOf)
      (refOf (mkDef ou_name account_ids))
      (List.mem_map.mpr ⟨_, hmem, rfl⟩) hnodupRefs
    simpa [refOf, mkDef] using this
  have hmap : (s.map fun d =>
      if d.CostCategoryArn == "arn:" ++ ("OU-" ++ ou_name)
      then { d with RuleVersion := "CostCategoryExpression.v1",
                    Rules := rulesFor ou_name account_ids }
      else d) = s := by
    have hcong : ∀ d ∈ s,
        (if d.CostCategoryArn == "arn:" ++ ("OU-" ++ ou_name)
         then { d with RuleVersion := "CostCategoryExpression.v1",
                       Rules := rulesFor ou_name account_ids }
         else d) = d := by
      intro d hd
      by_cases harn : d.CostCategoryArn == "arn:" ++ ("OU-" ++ ou_name)
      · have hname : d.Name = "OU-" ++ ou_name := by
          have h1 := harns d hd
          rw [h1] at harn
          exact string_append_left_cancel (beq_iff_eq.mp harn)
        have hde : d = mkDef ou_name account_ids := by
          apply List.inj_on_of_nodup_map hnodup hd hmem
          simp [mkDef, hname]
        subst hde
        simp [harn, mkDef]
      · simp [harn]
    rw [List.map_congr_left hcong, List.map_id']
  simp only [rulesFor] at hmap
  simp only [hex, if_true, hfilter, rulesFor]
  simp only [List.map_cons, List.map_nil, List.head!, refOf, mkDef]
  rw [hmap]

/-! ## Whole-run lemmas over the honest store -/

/-- Whether a Cost Explorer call is a create. -/
def isCreate : CECall → Bool
  | .create _ _ _ _ => true
  | _ => false

/-- The call trace of a run in which every reconciled OU takes the update
path. -/
def updateOnlyTrace (ps : List (String × List String)) : List CECall :=
  ps.flatMap fun p =>
    [CECall.listDefs,
     CECall.update ("arn:" ++ ("OU-" ++ p.1)) "CostCategoryExpression.v1"
       (rulesFor p.1 p.2)]

lemma updateOnlyTrace_no_create (ps : List (String × List String)) :
    ∀ c ∈ updateOnlyTrace ps, isCreate c = false := by
  intro c hc
  simp only [updateOnlyTrace, List.mem_flatMap, List.mem_cons] at hc
  obtain ⟨p, _, hc⟩ := hc
  rcases hc with rfl | hc
  · rfl
  · rcases hc with rfl | hc
    · rfl
    · exact absurd hc (List.not_mem_nil c)

/-- First run against a store holding no definition named after any of the
reconciled OUs: the loop appends exactly one definition per reconciled OU,
in order. -/
lemma handle_top_ous_fresh :
    ∀ (ous : List TopOU) (s : CEStore),
      (∀ p ∈ reconciled ous, ∀ d ∈ s, d.Name ≠ "OU-" ++ p.1) →
      ((reconciled ous).map Prod.fst).Nodup →
      (handle_top_ous honestCE s ous).1 =
        s ++ (reconciled ous).map fun p => mkDef p.1 p.2
  | [], s, _, _ => by simp [handle_top_ous, reconciled]
  | ou :: rest, s, hfresh, hnodup => by
    have hrec : reconciled (ou :: rest) =
        (ouSummary ou).toList ++ reconciled rest := by
      simp [reconciled, List.filterMap_cons]
      cases ouSummary ou <;> simp
    simp only [handle_top_ous, handle_top_ou_eq]
    cases hsum : ouSummary ou with
    | none =>
      simp only [hsum, Option.toList_none, List.nil_append] at hrec
      simp only [hrec] at hfresh hnodup
      simpa [hrec] using handle_top_ous_fresh rest s hfresh hnodup
    | some p =>
      obtain ⟨n, ids⟩ := p
      simp only [hsum, Option.toList_some, List.singleton_append] at hrec
      simp only [hrec, List.map_cons, List.nodup_cons] at hfresh hnodup ⊢
      have hstep := create_path s n ids fun d hd =>
        hfresh (n, ids) (List.mem_cons_self _ _) d hd
      simp only [hstep]
      have hfresh2 : ∀ p ∈ reconciled rest, ∀ d ∈ s ++ [mkDef n ids],
          d.Name ≠ "OU-" ++ p.1 := by
        intro p hp d hd
        rcases List.mem_append.mp hd with hds | hdm
        · exact hfresh p (List.mem_cons_of_mem _ hp) d hds
        · rcases List.mem_singleton.mp hdm with rfl
          simp only [mkDef, ne_eq]
          intro hcontra
          have : n = p.1 := string_append_left_cancel hcontra
          exact hnodup.1 (this ▸ List.mem_map_of_mem Prod.fst hp)
      have := handle_top_ous_fresh rest (s ++ [mkDef n ids]) hfresh2 hnodup.2
      simp only [this, List.append_assoc, List.singleton_append]

/-- Second run against a store that already holds the definition of every
reconciled OU (with ARNs derived from unique names): the loop leaves the
store unchanged and issues only listings and updates. -/
lemma handle_top_ous_stable :
    ∀ (ous : List TopOU) (s : CEStore),
      (∀ d ∈ s, d.CostCategoryArn = "arn:" ++ d.Name) →
      (s.map CostCategoryDef.Name).Nodup →
      (∀ p ∈ reconciled ous, mkDef p.1 p.2 ∈ s) →
      handle_top_ous honestCE s ous = (s, updateOnlyTrace (reconciled ous))
  | [], s, _, _, _ => by simp [handle_top_ous, reconciled, updateOnlyTrace]
  | ou :: rest, s, harns, hnodup, hmem => by
    have hrec : reconciled (ou :: rest) =
        (ouSummary ou).toList ++ reconciled rest := by
      simp [reconciled, List.filterMap_cons]
      cases ouSummary ou <;> simp
    simp only [handle_top_ous, handle_top_ou_eq]
    cases hsum : ouSummary ou with
    | none =>
      simp only [hsum, Option.toList_none, List.nil_append] at hrec
      simp only [hrec] at hmem
      have := handle_top_ous_stable rest s harns hnodup hmem
      simp [hrec, this]
    | some p =>
      obtain ⟨n, ids⟩ := p
      simp only [hsum, Option.toList_some, List.singleton_append] at hrec
      simp only [hrec] at hmem
      have hstep := update_path_unchanged s n ids harns hnodup
        (hmem (n, ids) (List.mem_cons_self _ _))
      simp only [hstep]
      have := handle_top_ous_stable rest s harns hnodup
        fun p hp => hmem p (List.mem_cons_of_mem _ hp)
      simp [hrec, this, updateOnlyTrace]

/-- When `list_roots` succeeds with a non-empty root list and the top-level
`list_children` succeeds, the handler returns 200 with the state and trace
of the per-OU loop. -/
lemma lambda_handler_ok {σ : Type} (org : OrgEnv) (ce : CEClient σ) (s : σ)
    (root_id : String) (more : List String) (ous : List TopOU)
    (hroots : org.rootsRes = .ok (root_id :: more))
    (hchildren : org.childrenRes root_id = .ok ous) :
    lambda_handler org ce s =
      .ok (⟨200, json_dumps "Cost categories updated successfully"⟩,
        (handle_top_ous ce s ous).1, (handle_top_ous ce s ous).2) := by
  unfold lambda_handler
  rw [hroots]
  simp only [hchildren]

/-! ## Claim theorems -/

/-- **C1** For every finite acyclic OU tree in which all directory-service
listing calls succeed, `get_accounts_by_ou` returns exactly the union,
without duplication, of the accounts directly owned by that OU and by all of
its descendant OUs, restricted to accounts whose lifecycle status is ACTIVE;
an account with non-ACTIVE status under any OU in the subtree never appears
in the result. -/
theorem collect_accounts_transitive_active (t : OUTree)
    (hok : treeOk t = true)
    (hids : ((allAccounts t).map OrgAccount.Id).Nodup) :
    ((get_accounts_by_ou t).map AccountEntry.Id).Nodup ∧
    (∀ i : String,
      (∃ e ∈ get_accounts_by_ou t, e.Id = i) ↔
      (∃ a ∈ allAccounts t, a.Status = "ACTIVE" ∧ a.Id = i)) ∧
    (∀ a ∈ allAccounts t, a.Status ≠ "ACTIVE" →
      ∀ e ∈ get_accounts_by_ou t, e.Id ≠ a.Id) := by
  rw [get_accounts_by_ou_of_ok t hok]
  refine ⟨?_, ?_, ?_⟩
  · have hsub : ((activeEntries (allAccounts t)).map AccountEntry.Id).Sublist
        ((allAccounts t).map OrgAccount.Id) := by
      simp only [activeEntries, List.map_map]
      have h1 : ((allAccounts t).filter fun a => a.Status == "ACTIVE").Sublist
          (allAccounts t) := List.filter_sublist _
      simpa using h1.map OrgAccount.Id
    exact hids.sublist hsub
  · intro i
    constructor
    · rintro ⟨e, he, rfl⟩
      simp only [activeEntries, List.mem_map, List.mem_filter] at he
      obtain ⟨a, ⟨ha, hst⟩, rfl⟩ := he
      exact ⟨a, ha, beq_iff_eq.mp hst, rfl⟩
    · rintro ⟨a, ha, hst, rfl⟩
      refine ⟨⟨a.Id, a.Name⟩, ?_, rfl⟩
      simp only [activeEntries, List.mem_map, List.mem_filter]
      exact ⟨a, ⟨ha, beq_iff_eq.mpr hst⟩, rfl⟩
  · intro a ha hst e he
    simp only [activeEntries, List.mem_map, List.mem_filter] at he
    obtain ⟨b, ⟨hb, hbst⟩, rfl⟩ := he
    intro hid
    have hab : b = a :=
      List.inj_on_of_nodup_map hids hb ha hid
    exact hst (hab ▸ beq_iff_eq.mp hbst)

/-- **C3** With an unchanged directory between two successive successful
runs, the second run leaves the store exactly as the first left it (one
definition per reconciled top-level OU, same rules), and issues only listing
and update calls — never a create. -/
theorem second_run_idempotent (org : OrgEnv) (root_id : String)
    (more : List String) (ous : List TopOU)
    (hroots : org.rootsRes = .ok (root_id :: more))
    (hchildren : org.childrenRes root_id = .ok ous)
    (hdir : ∀ ou ∈ ous, ou.nameRes.isSome ∧ treeOk ou.tree = true)
    (hnames : ((reconciled ous).map Prod.fst).Nodup) :
    ∃ s1 tr1 s2 tr2,
      lambda_handler org honestCE [] =
        .ok (⟨200, json_dumps "Cost categories updated successfully"⟩, s1, tr1) ∧
      lambda_handler org honestCE s1 =
        .ok (⟨200, json_dumps "Cost categories updated successfully"⟩, s2, tr2) ∧
      s1 = (reconciled ous).map (fun p => mkDef p.1 p.2) ∧
      s2 = s1 ∧
      (∀ c ∈ tr2, isCreate c = false) ∧
      (∀ p ∈ reconciled ous,
        (s2.filter fun d => d.Name == "OU-" ++ p.1).length = 1) := by
  have hs1 : (handle_top_ous honestCE [] ous).1 =
      (reconciled ous).map fun p => mkDef p.1 p.2 := by
    have := handle_top_ous_fresh ous []
      (fun p _ d hd => absurd hd (List.not_mem_nil d)) hnames
    simpa using this
  set s1 : CEStore := (reconciled ous).map fun p => mkDef p.1 p.2 with hs1def
  have harns : ∀ d ∈ s1, d.CostCategoryArn = "arn:" ++ d.Name := by
    intro d hd
    simp only [hs1def, List.mem_map] at hd
    obtain ⟨p, _, rfl⟩ := hd
    rfl
  have hinj : Function.Injective fun n : String => "OU-" ++ n :=
    fun a b h => string_append_left_cancel h
  have hnodup : (s1.map CostCategoryDef.Name).Nodup := by
    have : s1.map CostCategoryDef.Name =
        ((reconciled ous).map Prod.fst).map fun n => "OU-" ++ n := by
      simp [hs1def, List.map_map, Function.comp, mkDef]
    rw [this]
    exact hnames.map hinj
  have hmem : ∀ p ∈ reconciled ous, mkDef p.1 p.2 ∈ s1 := by
    intro p hp
    simp only [hs1def, List.mem_map]
    exact ⟨p, hp, rfl⟩
  have hrun2 := handle_top_ous_stable ous s1 harns hnodup hmem
  refine ⟨s1, (handle_top_ous honestCE [] ous).2, s1,
    updateOnlyTrace (reconciled ous), ?_, ?_, rfl, rfl, ?_, ?_⟩
  · rw [lambda_handler_ok org honestCE [] root_id more ous hroots hchildren, hs1]
  · rw [lambda_handler_ok org honestCE s1 root_id more ous hroots hchildren, hrun2]
  · exact updateOnlyTrace_no_create (reconciled ous)
  · intro p hp
    have := filter_key_single CostCategoryDef.Name s1 (mkDef p.1 p.2)
      (hmem p hp) hnodup
    simp only [mkDef] at this
    rw [this]
    rfl

/-- `head!` of a list whose `head?` is known. -/
lemma head_bang_of_head_eq {α : Type} [Inhabited α] (l : List α) (a : α)
    (h : l.head? = some a) : l.head! = a := by
  cases l with
  | nil => simp at h
  | cons x xs => simp only [List.head?_cons, Option.some.injEq] at h; simpa [List.head!]

/-- Filtering for a key that only one member matches puts that member first. -/
lemma head_filter_of_unique {α : Type} (p : α → Bool) :
    ∀ (l : List α) (a : α), a ∈ l → p a = true →
      (∀ b ∈ l, p b = true → b = a) →
      (l.filter p).head? = some a
  | [], a, ha, _, _ => absurd ha (List.not_mem_nil a)
  | x :: xs, a, ha, hpa, huniq => by
    by_cases hpx : p x = true
    · have hxa : x = a := huniq x (List.mem_cons_self _ _) hpx
      subst hxa
      simp [List.filter_cons, hpx]
    · have hax : a ≠ x := fun h => hpx (h ▸ hpa)
      have haxs : a ∈ xs := by
        rcases List.mem_cons.mp ha with h | h
        · exact absurd h hax
        · exact h
      simp only [List.filter_cons, hpx, Bool.false_eq_true, if_false]
      exact head_filter_of_unique p xs a haxs hpa
        fun b hb hpb => huniq b (List.mem_cons_of_mem _ hb) hpb

/-- **C2** When the listing succeeds: if a definition named `"OU-" ++ n`
exists (and is the unique such), exactly one update is issued, to that
definition's `CostCategoryArn`, carrying the newly built single-rule rule
set, and no create; otherwise exactly one create is issued with that name,
the rule set, and default value `"Other"`, and no update. -/
theorem reconcile_create_vs_update {σ : Type} (ce : CEClient σ) (s : σ)
    (ou_name : String) (account_ids : List String)
    (hne : account_ids ≠ [])
    (existing : List CostCategoryRef)
    (hlist : (ce.listDefs s).2 = .ok existing) :
    (∀ cat ∈ existing, cat.Name = "OU-" ++ ou_name →
      (∀ c' ∈ existing, c'.Name = "OU-" ++ ou_name → c' = cat) →
      (create_or_update_cost_category ce s ou_name account_ids).2 =
        [CECall.listDefs,
         CECall.update cat.CostCategoryArn "CostCategoryExpression.v1"
           (rulesFor ou_name account_ids)]) ∧
    ((∀ cat ∈ existing, cat.Name ≠ "OU-" ++ ou_name) →
      (create_or_update_cost_category ce s ou_name account_ids).2 =
        [CECall.listDefs,
         CECall.create ("OU-" ++ ou_name) "CostCategoryExpression.v1"
           (rulesFor ou_name account_ids) "Other"]) := by
  have hpair : ce.listDefs s = ((ce.listDefs s).1, Except.ok existing) := by
    rw [← hlist]
  constructor
  · intro cat hcat hname huniq
    have hex : (existing.any fun c => c.Name == "OU-" ++ ou_name) = true := by
      simp only [List.any_eq_true]
      exact ⟨cat, hcat, beq_iff_eq.mpr hname⟩
    have hhead : ((existing.filter fun c => c.Name == "OU-" ++ ou_name).map
        fun c => c.CostCategoryArn).head! = cat.CostCategoryArn := by
      apply head_bang_of_head_eq
      rw [List.head?_map]
      rw [head_filter_of_unique (fun c => c.Name == "OU-" ++ ou_name) existing cat
        hcat (beq_iff_eq.mpr hname)
        fun b hb hpb => huniq b hb (beq_iff_eq.mp hpb)]
      rfl
    unfold create_or_update_cost_category
    rw [hpair]
    simp only [hex, if_true, hhead, rulesFor]
  · intro hnone
    have hex : (existing.any fun c => c.Name == "OU-" ++ ou_name) = false := by
      simp only [List.any_eq_false, beq_iff_eq]
      exact fun c hc => hnone c hc
    unfold create_or_update_cost_category
    rw [hpair]
    simp only [hex, Bool.false_eq_true, if_false, rulesFor]

/-- **C4** A top-level OU whose transitively collected ACTIVE account-id
list is empty triggers no Cost Explorer call at all: the per-OU loop body
leaves the store untouched and issues no create and no update. -/
theorem empty_ou_skipped {σ : Type} (ce : CEClient σ) (s : σ) (ou : TopOU)
    (hids : ouIds ou = []) :
    handle_top_ou ce s ou = (s, []) := by
  rw [handle_top_ou_eq]
  unfold ouSummary
  cases get_ou_details ou with
  | none => rfl
  | some n =>
    by_cases hn : n == ""
    · simp [hn]
    · simp [hn, hids]

/-- **C5** When `list_accounts_for_parent` raises for an OU, the failure is
recovered locally: the call still returns a plain list — the ACTIVE entries
appended before the failure (the empty list when nothing was) — and the
children of that node contribute nothing, whatever they are. -/
theorem account_listing_failure_recovered (ouId : String)
    (accs : List OrgAccount) (children : List OUTree) (childErr : Bool) :
    get_accounts_by_ou (.node ouId accs true children childErr) =
      activeEntries accs ∧
    get_accounts_by_ou (.node ouId [] true children childErr) = [] := by
  constructor
  · simp [get_accounts_by_ou]
  · simp [get_accounts_by_ou, activeEntries]

/-- **C6** When `list_children` raises for an OU, the recursion for that
branch stops at the child subtrees the paginator had already yielded: the
OU's own ACTIVE accounts are still returned (exactly them when the failure
came before any child), and the call still returns a plain list. -/
theorem child_listing_failure_truncates (ouId : String)
    (accs : List OrgAccount) (children : List OUTree) :
    get_accounts_by_ou (.node ouId accs false children true) =
      activeEntries accs ++ get_accounts_by_ou_children children ∧
    get_accounts_by_ou (.node ouId accs false [] true) = activeEntries accs := by
  constructor
  · simp [get_accounts_by_ou]
  · simp [get_accounts_by_ou, get_accounts_by_ou_children]

/-- **C7** When one top-level OU's reconciliation fails and (as a swallowed
failure does) leaves the store unchanged, every subsequent top-level OU is
still processed, from the same store, with exactly the calls it would have
issued had the failed OU not been there. -/
theorem reconciler_failure_isolated {σ : Type} (ce : CEClient σ) (s : σ)
    (ou : TopOU) (rest : List TopOU)
    (hfail : (handle_top_ou ce s ou).1 = s) :
    handle_top_ous ce s (ou :: rest) =
      ((handle_top_ous ce s rest).1,
       (handle_top_ou ce s ou).2 ++ (handle_top_ous ce s rest).2) := by
  have hp2 : handle_top_ou ce s ou = (s, (handle_top_ou ce s ou).2) := by
    conv_lhs => rw [← Prod.mk.eta (p := handle_top_ou ce s ou)]
    rw [hfail]
  simp only [handle_top_ous]
  conv_lhs => rw [hp2]

/-- **C8** A top-level OU whose describe call failed is skipped entirely:
the loop body issues no Cost Explorer call and leaves the store untouched,
its result does not depend on the OU's subtree (the Tree Collector's input),
and processing of the remaining top-level OUs is exactly as if the OU were
absent. -/
theorem describe_failure_skips_ou {σ : Type} (ce : CEClient σ) (s : σ)
    (ou : TopOU) (rest : List TopOU)
    (hname : ou.nameRes = none) :
    handle_top_ou ce s ou = (s, []) ∧
    (∀ t' : OUTree, handle_top_ou ce s ⟨ou.ouId, ou.nameRes, t'⟩ = (s, [])) ∧
    handle_top_ous ce s (ou :: rest) = handle_top_ous ce s rest := by
  have h1 : handle_top_ou ce s ou = (s, []) := by
    unfold handle_top_ou get_ou_details
    rw [hname]
  refine ⟨h1, ?_, ?_⟩
  · intro t'
    unfold handle_top_ou get_ou_details
    rw [hname]
  · simp only [handle_top_ous, h1, List.nil_append]

/-- **C9** A `ClientError` while resolving the root or while listing its
top-level children yields the 500 outcome whose body embeds the raw error
text; when both top-level steps succeed the outcome is the 200 success,
whatever happened inside the per-OU loop. -/
theorem run_outcome_top_level (org : OrgEnv) {σ : Type} (ce : CEClient σ)
    (s : σ) :
    (∀ msg, org.rootsRes = .error (PyErr.clientError msg) →
      ∃ pre post,
        lambda_handler org ce s = .ok (⟨500, pre ++ msg ++ post⟩, s, [])) ∧
    (∀ root_id more msg, org.rootsRes = .ok (root_id :: more) →
      org.childrenRes root_id = .error (PyErr.clientError msg) →
      ∃ pre post,
        lambda_handler org ce s = .ok (⟨500, pre ++ msg ++ post⟩, s, [])) ∧
    (∀ root_id more ous, org.rootsRes = .ok (root_id :: more) →
      org.childrenRes root_id = .ok ous →
      ∃ s' tr, lambda_handler org ce s =
        .ok (⟨200, json_dumps "Cost categories updated successfully"⟩, s', tr)) := by
  refine ⟨?_, ?_, ?_⟩
  · intro msg hroots
    refine ⟨"\"" ++ "Error: ", "\"", ?_⟩
    unfold lambda_handler
    rw [hroots]
    simp only [json_dumps, String.append_assoc]
  · intro root_id more msg hroots hchildren
    refine ⟨"\"" ++ "Error: ", "\"", ?_⟩
    unfold lambda_handler
    rw [hroots]
    simp only [hchildren, json_dumps, String.append_assoc]
  · intro root_id more ous hroots hchildren
    exact ⟨_, _, lambda_handler_ok org ce s root_id more ous hroots hchildren⟩

/-- **C10** Only `ClientError` is converted into the 500 outcome: an empty
`Roots` list makes the `[0]` subscript raise an uncaught `IndexError`, and a
non-`ClientError` from `list_roots` or the top-level `list_children` escapes
the handler uncaught. -/
theorem non_client_errors_escape (org : OrgEnv) {σ : Type} (ce : CEClient σ)
    (s : σ) :
    (org.rootsRes = .ok [] →
      lambda_handler org ce s = .error Uncaught.indexError) ∧
    (∀ msg, org.rootsRes = .error (PyErr.otherError msg) →
      lambda_handler org ce s = .error (Uncaught.raised (PyErr.otherError msg))) ∧
    (∀ root_id more msg, org.rootsRes = .ok (root_id :: more) →
      org.childrenRes root_id = .error (PyErr.otherError msg) →
      lambda_handler org ce s =
        .error (Uncaught.raised (PyErr.otherError msg))) := by
  refine ⟨?_, ?_, ?_⟩
  · intro hroots
    unfold lambda_handler
    rw [hroots]
  · intro msg hroots
    unfold lambda_handler
    rw [hroots]
  · intro root_id more msg hroots hchildren
    unfold lambda_handler
    rw [hroots]
    simp [hchildren]

/-! ## Concrete sample environments -/

/-- A chain `A -> B -> C`: `A` owns an ACTIVE account, `B` owns an ACTIVE
account, `C` owns a SUSPENDED account; every listing call succeeds. -/
def sampleTree : OUTree :=
  .node "ou-a" [⟨"100000000001", "a1", "ACTIVE"⟩] false
    [.node "ou-b" [⟨"100000000002", "b1", "ACTIVE"⟩] false
      [.node "ou-c" [⟨"100000000003", "c1", "SUSPENDED"⟩] false [] false] false]
    false

/-- A one-OU subtree with a single ACTIVE account `111111111111`. -/
def finTree : OUTree :=
  .node "ou-fin" [⟨"111111111111", "fin-acct", "ACTIVE"⟩] false [] false

/-- A one-OU subtree with a single ACTIVE account `222222222222`. -/
def engTree : OUTree :=
  .node "ou-eng" [⟨"222222222222", "eng-acct", "ACTIVE"⟩] false [] false

/-- Top-level OU "Finance". -/
def finOU : TopOU := ⟨"ou-fin", some "Finance", finTree⟩

/-- Top-level OU "Engineering". -/
def engOU : TopOU := ⟨"ou-eng", some "Engineering", engTree⟩

/-- A top-level OU whose describe call raised `ClientError`. -/
def badOU : TopOU := ⟨"ou-bad", none, finTree⟩

/-- A top-level OU whose only account is SUSPENDED, so its collected
account-id list is empty. -/
def idleOU : TopOU :=
  ⟨"ou-idle", some "Idle",
    .node "ou-idle" [⟨"333333333333", "idle-acct", "SUSPENDED"⟩] false [] false⟩

/-- A healthy organization: one root with the Finance and Engineering
top-level OUs. -/
def sampleOrg : OrgEnv :=
  ⟨.ok ["r-root"],
   fun root_id =>
     if root_id == "r-root" then .ok [finOU, engOU]
     else .error (.clientError "ParentNotFoundException")⟩

/-- An organization whose `list_roots` call raises `ClientError`. -/
def failRootsOrg : OrgEnv :=
  ⟨.error (.clientError "AccessDeniedException"),
   fun _ => .error (.clientError "AccessDeniedException")⟩

/-- An organization whose `list_roots` call succeeds with no roots. -/
def emptyRootsOrg : OrgEnv := ⟨.ok [], fun _ => .ok []⟩

/-- An organization whose `list_roots` call raises a non-`ClientError`. -/
def crashOrg : OrgEnv := ⟨.error (.otherError "boom"), fun _ => .ok []⟩

/-- A reference to an existing `OU-Finance` definition. -/
def finRef : CostCategoryRef :=
  ⟨"OU-Finance", "arn:aws:ce::123456789012:costcategory/finance"⟩

/-- A store already holding the `OU-Finance` definition `finRef` points at. -/
def finStore : CEStore :=
  [⟨"OU-Finance", "arn:aws:ce::123456789012:costcategory/finance",
    "CostCategoryExpression.v1", rulesFor "Finance" ["111111111111"], "Other"⟩]

/-- An honest store client whose create fails (with a raised `ClientError`,
leaving the store unchanged) for any category named in `failNames`, and
whose update fails likewise for the ARN derived from such a name. -/
def faultyCE (failNames : List String) : CEClient CEStore where
  listDefs s := (s, .ok (s.map refOf))
  updateDef s arn rv rules :=
    if failNames.any fun n => arn == "arn:" ++ n then (s, .error "AccessDeniedException")
    else (s.map fun d =>
      if d.CostCategoryArn == arn then { d with RuleVersion := rv, Rules := rules } else d,
      .ok ())
  createDef s name rv rules dv :=
    if failNames.contains name then (s, .error "AccessDeniedException")
    else (s ++ [⟨name, "arn:" ++ name, rv, rules, dv⟩], .ok ())

/-! ## Witnesses -/

/-- Witness for the transitive-collection theorem on the chain `A -> B -> C`. -/
theorem collect_accounts_transitive_active_witness :
    treeOk sampleTree = true ∧
    ((allAccounts sampleTree).map OrgAccount.Id).Nodup ∧
    (((get_accounts_by_ou sampleTree).map AccountEntry.Id).Nodup ∧
     (∀ i : String,
       (∃ e ∈ get_accounts_by_ou sampleTree, e.Id = i) ↔
       (∃ a ∈ allAccounts sampleTree, a.Status = "ACTIVE" ∧ a.Id = i)) ∧
     (∀ a ∈ allAccounts sampleTree, a.Status ≠ "ACTIVE" →
       ∀ e ∈ get_accounts_by_ou sampleTree, e.Id ≠ a.Id)) :=
  ⟨by decide, by decide,
   collect_accounts_transitive_active sampleTree (by decide) (by decide)⟩

/-- Witness for the create-vs-update branch: `OU-Finance` exists, so
reconciling "Finance" updates it at its ARN; `OU-Sales` does not, so
reconciling "Sales" creates it with default `"Other"`. -/
theorem reconcile_create_vs_update_witness :
    (create_or_update_cost_category honestCE finStore "Finance"
        ["111111111111"]).2 =
      [CECall.listDefs,
       CECall.update finRef.CostCategoryArn "CostCategoryExpression.v1"
         (rulesFor "Finance" ["111111111111"])] ∧
    (create_or_update_cost_category honestCE finStore "Sales"
        ["444444444444"]).2 =
      [CECall.listDefs,
       CECall.create "OU-Sales" "CostCategoryExpression.v1"
         (rulesFor "Sales" ["444444444444"]) "Other"] :=
  ⟨(reconcile_create_vs_update honestCE finStore "Finance" ["111111111111"]
      (by decide) [finRef] rfl).1 finRef (by decide) (by decide)
      (by decide),
   (reconcile_create_vs_update honestCE finStore "Sales" ["444444444444"]
      (by decide) [finRef] rfl).2 (by decide)⟩

/-- Witness for second-run idempotence on the healthy two-OU organization. -/
theorem second_run_idempotent_witness :
    ∃ s1 tr1 s2 tr2,
      lambda_handler sampleOrg honestCE [] =
        .ok (⟨200, json_dumps "Cost categories updated successfully"⟩, s1, tr1) ∧
      lambda_handler sampleOrg honestCE s1 =
        .ok (⟨200, json_dumps "Cost categories updated successfully"⟩, s2, tr2) ∧
      s1 = (reconciled [finOU, engOU]).map (fun p => mkDef p.1 p.2) ∧
      s2 = s1 ∧
      (∀ c ∈ tr2, isCreate c = false) ∧
      (∀ p ∈ reconciled [finOU, engOU],
        (s2.filter fun d => d.Name == "OU-" ++ p.1).length = 1) :=
  second_run_idempotent sampleOrg "r-root" [] [finOU, engOU] rfl rfl
    (by decide) (by decide)

/-- Witness for the empty-OU skip: `idleOU` has no ACTIVE account, so the
loop body issues no call. -/
theorem empty_ou_skipped_witness :
    ouIds idleOU = [] ∧
    handle_top_ou honestCE finStore idleOU = (finStore, []) :=
  ⟨by decide, empty_ou_skipped honestCE finStore idleOU (by decide)⟩

/-- Witness for partial-failure isolation: the create for `OU-Finance`
fails, yet `OU-Engineering` is still processed and its definition lands in
the store. -/
theorem reconciler_failure_isolated_witness :
    (handle_top_ou (faultyCE ["OU-Finance"]) [] finOU).1 = [] ∧
    handle_top_ous (faultyCE ["OU-Finance"]) [] (finOU :: [engOU]) =
      ((handle_top_ous (faultyCE ["OU-Finance"]) [] [engOU]).1,
       (handle_top_ou (faultyCE ["OU-Finance"]) [] finOU).2 ++
         (handle_top_ous (faultyCE ["OU-Finance"]) [] [engOU]).2) ∧
    mkDef "Engineering" ["222222222222"] ∈
      (handle_top_ous (faultyCE ["OU-Finance"]) [] (finOU :: [engOU])).1 :=
  ⟨by decide,
   reconciler_failure_isolated (faultyCE ["OU-Finance"]) [] finOU [engOU]
     (by decide),
   by decide⟩

/-- Witness for the describe-failure skip: `badOU` is skipped entirely. -/
theorem describe_failure_skips_ou_witness :
    handle_top_ou honestCE finStore badOU = (finStore, []) ∧
    (∀ t' : OUTree,
      handle_top_ou honestCE finStore ⟨badOU.ouId, badOU.nameRes, t'⟩ =
        (finStore, [])) ∧
    handle_top_ous honestCE finStore (badOU :: [engOU]) =
      handle_top_ous honestCE finStore [engOU] :=
  describe_failure_skips_ou honestCE finStore badOU [engOU] rfl

/-- Witness for the run-outcome theorem: a root-listing `ClientError` yields
the 500 outcome embedding the error text, and the healthy organization
yields the 200 outcome. -/
theorem run_outcome_top_level_witness :
    (∃ pre post,
      lambda_handler failRootsOrg honestCE ([] : CEStore) =
        .ok (⟨500, pre ++ "AccessDeniedException" ++ post⟩, [], [])) ∧
    (∃ s' tr,
      lambda_handler sampleOrg honestCE ([] : CEStore) =
        .ok (⟨200, json_dumps "Cost categories updated successfully"⟩, s', tr)) :=
  ⟨(run_outcome_top_level failRootsOrg honestCE []).1 "AccessDeniedException" rfl,
   (run_outcome_top_level sampleOrg honestCE []).2.2 "r-root" [] [finOU, engOU]
     rfl rfl⟩

/-- Witness for uncaught escapes: an empty roots list raises `IndexError`
and a non-`ClientError` from `list_roots` escapes. -/
theorem non_client_errors_escape_witness :
    lambda_handler emptyRootsOrg honestCE ([] : CEStore) =
      .error Uncaught.indexError ∧
    lambda_handler crashOrg honestCE ([] : CEStore) =
      .error (Uncaught.raised (PyErr.otherError "boom")) :=
  ⟨(non_client_errors_escape emptyRootsOrg honestCE []).1 rfl,
   (non_client_errors_escape crashOrg honestCE []).2.1 "boom" rfl⟩
